import Mathlib

/-!
Verification of the connect-four game-tree solver (6×7 board).

The definitions below are a shallow embedding of the repository's core:
the board engine (`getAvailableRow`, `dropPiece`, `isWinningMove`,
`getValidColumns`), the outcome model (`summarizeOutcomes`), the serial
tree explorer `exploreGameTree` (src/pasOpti.ts), the early-exiting
variant `exploreGameTreeSmart` (the unnamed TypeScript source), and the
path extractor `findShortestWinningPath`.

A board is a function `Fin 6 → Fin 7 → Option Player`: row 0 is the top
row and row 5 the bottom row, `none` is an empty cell (the source's `0`).
The explorers recurse on a board with one extra piece each ply; the Lean
embedding makes that recursion structural on a fuel argument equal to the
number of empty cells, and the unfolding equation of the fuel-free
function is proved below (`exploreGameTree_unfold`).
-/

inductive Player : Type where
  | P1 : Player
  | P2 : Player
deriving DecidableEq

/-- The source's inline ternary `currentPlayer === 1 ? 2 : 1`. -/
def opponentOf (p : Player) : Player :=
  if p = .P1 then .P2 else .P1

abbrev Cell : Type := Option Player

/-- `ROWS = 6`, `COLS = 7`; row index 0 is the printed top row. -/
abbrev Board : Type := Fin 6 → Fin 7 → Cell

def createBoard : Board := fun _ _ => none

/-- The body of `getAvailableRow`'s `for (let row = ROWS - 1; row >= 0; row--)`
loop, taken over an explicit list of row indices. -/
def getAvailableRowLoop (board : Board) (col : Fin 7) : List (Fin 6) → Option (Fin 6)
  | [] => none
  | row :: rest =>
      if board row col = none then some row else getAvailableRowLoop board col rest

/-- `getAvailableRow(board, col)`: scan rows from the bottom (index 5) upward,
return the first empty row, `none` when the column is full. -/
def getAvailableRow (board : Board) (col : Fin 7) : Option (Fin 6) :=
  getAvailableRowLoop board col (List.finRange 6).reverse

/-- `dropPiece(board, row, col, player)` as a functional update. -/
def dropPiece (board : Board) (row : Fin 6) (col : Fin 7) (player : Player) : Board :=
  fun r c => if r = row ∧ c = col then some player else board r c

/-- The four scan directions of `isWinningMove`. -/
def directions : List (Int × Int) := [(0, 1), (1, 0), (1, 1), (1, -1)]

/-- The source's combined test
`nr >= 0 && nr < ROWS && nc >= 0 && nc < COLS && board[nr][nc] === player`. -/
def cellIs (board : Board) (player : Player) (r c : Int) : Bool :=
  if h : 0 ≤ r ∧ r < 6 ∧ 0 ≤ c ∧ c < 7 then
    board ⟨r.toNat, by omega⟩ ⟨c.toNat, by omega⟩ = some player
  else false

/-- `isWinningMove(board, player)`: scan every cell holding `player`'s mark as
a line start and count four steps in each direction; win iff some count
reaches 4. -/
def isWinningMove (board : Board) (player : Player) : Bool :=
  (List.finRange 6).any fun r =>
    (List.finRange 7).any fun c =>
      board r c = some player &&
        directions.any fun dir =>
          ((List.range 4).countP fun i =>
            cellIs board player ((r : Int) + dir.1 * i) ((c : Int) + dir.2 * i)) == 4

/-- `getValidColumns(board)`: ascending columns with at least one empty cell. -/
def getValidColumns (board : Board) : List (Fin 7) :=
  (List.finRange 7).filter fun col => (getAvailableRow board col).isSome

/-- The sort key `Math.abs(3 - a)` of the explorers' center-first ordering. -/
def centerDistance (col : Fin 7) : Nat := (3 - (col : Int)).natAbs

/-- One insertion step of a stable insertion sort by `centerDistance`
(ties keep the earlier element first, as JavaScript's stable `sort` does). -/
def insertByCenter (col : Fin 7) : List (Fin 7) → List (Fin 7)
  | [] => [col]
  | d :: rest =>
      if centerDistance d < centerDistance col then d :: insertByCenter col rest
      else col :: d :: rest

/-- `validCols.sort((a, b) => Math.abs(3 - a) - Math.abs(3 - b))`:
stable sort by ascending distance from the center column. -/
def sortCenter (cols : List (Fin 7)) : List (Fin 7) :=
  cols.foldr insertByCenter []

/-- Number of empty cells of a board; the explorers' recursion adds one
piece per ply, so this is their termination measure. -/
def emptyCount (board : Board) : Nat :=
  (Finset.univ.filter fun rc : Fin 6 × Fin 7 => board rc.1 rc.2 = none).card

/-- Gravity invariant (§3 of the spec): a column's occupied cells form a
contiguous run starting at the bottom row, i.e. every cell above an empty
cell is empty. -/
def Gravity (board : Board) : Prop :=
  ∀ (r : Fin 6) (c : Fin 7), board r c = none → ∀ r' : Fin 6, r' ≤ r → board r' c = none

instance (board : Board) : Decidable (Gravity board) := by
  unfold Gravity
  infer_instance

/-! ### The outcome model and the game tree -/

inductive GameOutcome : Type where
  | WIN_P1 : GameOutcome
  | WIN_P2 : GameOutcome
  | DRAW : GameOutcome
deriving DecidableEq

/-!
`GameNode { move, outcome, children }`; `GameForest` is the ordered list of
sibling nodes (`GameNode[]` in the source), as a mutual inductive so that the
tree traversals below are structural.
-/
mutual
inductive GameNode : Type where
  | mk : Int → GameOutcome → GameForest → GameNode
inductive GameForest : Type where
  | nil : GameForest
  | cons : GameNode → GameForest → GameForest
end

deriving instance DecidableEq for GameNode, GameForest

def GameNode.move : GameNode → Int
  | .mk m _ _ => m

def GameNode.outcome : GameNode → GameOutcome
  | .mk _ oc _ => oc

def GameNode.children : GameNode → GameForest
  | .mk _ _ cs => cs

def GameForest.toList : GameForest → List GameNode
  | .nil => []
  | .cons n rest => n :: rest.toList

/-- Total number of nodes under a forest, the measure for the tree
induction principle `forest_deep_induction`. -/
def forestSize : GameForest → Nat
  | .nil => 0
  | .cons (GameNode.mk _ _ cs) rest => 1 + forestSize cs + forestSize rest

/-- The source's `player === 1 ? "WIN_P1" : "WIN_P2"`. -/
def winOf (player : Player) : GameOutcome := if player = .P1 then .WIN_P1 else .WIN_P2

/-- The source's `player === 1 ? "WIN_P2" : "WIN_P1"`. -/
def loseOf (player : Player) : GameOutcome := if player = .P1 then .WIN_P2 else .WIN_P1

/-- `nodes.some(f)` over a forest. -/
def forestAny (f : GameNode → Bool) : GameForest → Bool
  | .nil => false
  | .cons n rest => f n || forestAny f rest

/-- `nodes.every(f)` over a forest. -/
def forestAll (f : GameNode → Bool) : GameForest → Bool
  | .nil => true
  | .cons n rest => f n && forestAll f rest

/-- `summarizeOutcomes(nodes, player)`: the mover's win if some child carries
it, else the mover's loss if every child carries it, else `DRAW`. -/
def summarizeOutcomes (nodes : GameForest) (player : Player) : GameOutcome :=
  let win := winOf player
  let lose := loseOf player
  if forestAny (fun n => n.outcome = win) nodes then win
  else if forestAll (fun n => n.outcome = lose) nodes then lose
  else .DRAW

/-! ### The tree explorers -/

/-- The body of the serial explorer's `for (const col of validCols)` loop
(src/pasOpti.ts lines 71-84), one candidate column at a time, `recur` being
the recursive call on the next ply: a full column is skipped, an immediately
winning placement becomes a childless decisive node, and otherwise the node
carries the recursion's forest and its summarized outcome. Nodes are pushed
in candidate order. -/
def exploreStep (board : Board) (currentPlayer opponent : Player) (depth : Int)
    (recur : Board → Player → Int → GameForest) (col : Fin 7)
    (results : GameForest) : GameForest :=
  match getAvailableRow board col with
  | none => results
  | some row =>
      let newBoard := dropPiece board row col currentPlayer
      if isWinningMove newBoard currentPlayer then
        .cons (.mk (col : Int) (winOf currentPlayer) .nil) results
      else
        let nextMoves := recur newBoard opponent (depth - 1)
        .cons (.mk (col : Int) (summarizeOutcomes nextMoves currentPlayer) nextMoves) results

/-- The serial explorer (src/pasOpti.ts `exploreGameTree`), made structural
on a fuel argument; `exploreGameTree` below passes `emptyCount board` as
fuel, which `exploreGameTree_unfold` shows is enough to realize the source's
fuel-free recursion (each ply drops one piece into an empty cell). The
`fuel = 0` branch is unreachable then: no legal column remains on a board
with no empty cell, and its value coincides with the terminal sentinel. -/
def exploreAux : Board → Player → Int → Nat → GameForest
  | _, _, _, 0 => .cons (.mk (-1) .DRAW .nil) .nil
  | board, currentPlayer, depth, fuel + 1 =>
      let opponent := opponentOf currentPlayer
      let validCols := sortCenter (getValidColumns board)
      if depth = 0 ∨ validCols = [] then .cons (.mk (-1) .DRAW .nil) .nil
      else
        validCols.foldr
          (exploreStep board currentPlayer opponent depth
            (fun b p d => exploreAux b p d fuel))
          .nil

/-- `exploreGameTree(board, currentPlayer, depth)` of src/pasOpti.ts: the
serial explorer. Winning placements become childless decisive leaves and the
loop continues to the next candidate column (no early exit). -/
def exploreGameTree (board : Board) (currentPlayer : Player) (depth : Int) : GameForest :=
  exploreAux board currentPlayer depth (emptyCount board)

/-- The `depth <= 3` shallow fan-out of `exploreGameTreeSmart`: each valid
reply of the opponent becomes a childless node, decisive when that reply wins
immediately, `DRAW` otherwise. -/
def shallowExpand (board : Board) (opponent : Player) : GameForest :=
  (getValidColumns board).foldr
    (fun subCol acc =>
      match getAvailableRow board subCol with
      | none => acc
      | some subRow =>
          let subBoard := dropPiece board subRow subCol opponent
          if isWinningMove subBoard opponent then
            .cons (.mk (subCol : Int) (winOf opponent) .nil) acc
          else
            .cons (.mk (subCol : Int) .DRAW .nil) acc)
    .nil

/-- The body of `exploreGameTreeSmart`'s column loop, threading `Sum`:
`Sum.inl n` models the early `return [n]` (an immediate winning placement,
or a summarized outcome equal to the mover's win), which discards every
sibling accumulated so far and stops consuming candidates; `Sum.inr`
accumulates the ordinary result list. Children come from the one-ply
shallow fan-out when `depth <= 3` and from the recursion otherwise. -/
def exploreSmartStep (board : Board) (currentPlayer opponent : Player) (depth : Int)
    (recur : Board → Player → Int → GameForest) (col : Fin 7)
    (racc : GameNode ⊕ GameForest) : GameNode ⊕ GameForest :=
  match getAvailableRow board col with
  | none => racc
  | some row =>
      let newBoard := dropPiece board row col currentPlayer
      if isWinningMove newBoard currentPlayer then
        Sum.inl (GameNode.mk (col : Int) (winOf currentPlayer) .nil)
      else
        let children :=
          if depth ≤ 3 then shallowExpand newBoard opponent
          else recur newBoard opponent (depth - 1)
        let outcome := summarizeOutcomes children currentPlayer
        if outcome = winOf currentPlayer then
          Sum.inl (GameNode.mk (col : Int) outcome children)
        else
          match racc with
          | Sum.inl n => Sum.inl n
          | Sum.inr rest =>
              Sum.inr (GameForest.cons (GameNode.mk (col : Int) outcome children) rest)

/-- The body of the unnamed source's `exploreGameTreeSmart`, fueled like
`exploreAux`: an early `return` (`Sum.inl`) yields a singleton forest,
otherwise the accumulated list is returned. -/
def exploreSmartAux : Board → Player → Int → Nat → GameForest
  | _, _, _, 0 => .cons (.mk (-1) .DRAW .nil) .nil
  | board, currentPlayer, depth, fuel + 1 =>
      let opponent := opponentOf currentPlayer
      let validCols := sortCenter (getValidColumns board)
      if depth = 0 ∨ validCols = [] then .cons (.mk (-1) .DRAW .nil) .nil
      else
        match validCols.foldr
          (exploreSmartStep board currentPlayer opponent depth
            (fun b p d => exploreSmartAux b p d fuel))
          (Sum.inr GameForest.nil) with
        | Sum.inl n => .cons n .nil
        | Sum.inr results => results

/-- `exploreGameTreeSmart(board, currentPlayer, depth)` of the unnamed
TypeScript source: like the serial explorer but with an early `return` of a
single node on a decisive branch, and a one-ply shallow fan-out when
`depth <= 3`. -/
def exploreGameTreeSmart (board : Board) (currentPlayer : Player) (depth : Int) : GameForest :=
  exploreSmartAux board currentPlayer depth (emptyCount board)

/-! ### The path extractor -/

/-- The recursive `dfs` closure of `findShortestWinningPath`: walk the
forest in order, carrying the move path from the root and the best hit path
found so far (`acc`, the source's captured `shortest`); a hit is a childless
node carrying the target outcome, recorded when strictly shorter than the
current best; nodes with children are searched recursively. -/
def dfsForest (target : GameOutcome) : List Int → Option (List Int) → GameForest → Option (List Int)
  | _, acc, .nil => acc
  | path, acc, .cons (GameNode.mk m oc cs) rest =>
      let newPath := path ++ [m]
      let acc' :=
        match cs with
        | .nil =>
            if oc = target then
              match acc with
              | none => some newPath
              | some s => if newPath.length < s.length then some newPath else some s
            else acc
        | .cons _ _ => dfsForest target newPath acc cs
      dfsForest target path acc' rest

/-- `findShortestWinningPath(nodes, target)`: the move path of a shortest
childless node carrying `target`, or `none` when there is no such node. -/
def findShortestWinningPath (nodes : GameForest) (target : GameOutcome) : Option (List Int) :=
  dfsForest target [] none nodes

/-! ### Spec-side predicates over game trees -/

/-- Every node of a forest, the head node itself included (the spec's "node
anywhere in the forest"). -/
def forestNodes : GameForest → List GameNode
  | .nil => []
  | .cons (GameNode.mk m oc cs) rest =>
      GameNode.mk m oc cs :: (forestNodes cs ++ forestNodes rest)

/-- The root-to-node move paths of every hit node of a forest, in
depth-first order: a hit is a node whose outcome equals `target` and whose
children list is empty (§4.4 of the spec). -/
def hitPaths (target : GameOutcome) : GameForest → List (List Int)
  | .nil => []
  | .cons (GameNode.mk m oc cs) rest =>
      (match cs with
       | .nil => if oc = target then [[m]] else []
       | .cons _ _ => (hitPaths target cs).map fun q => m :: q) ++ hitPaths target rest

/-- The spec's tree invariant (§3/§4.2): every node with a non-empty
children list carries `summarize(children, mover)`, the mover alternating
from ply to ply. -/
def forestInv (player : Player) : GameForest → Prop
  | .nil => True
  | .cons (GameNode.mk _ oc cs) rest =>
      (cs ≠ .nil → oc = summarizeOutcomes cs player) ∧
        forestInv (opponentOf player) cs ∧ forestInv player rest

/-- The fold the `dfs` traversal amounts to: starting from `acc`, keep the
first strictly-shortest candidate. -/
def pickBest (acc : Option (List Int)) (cands : List (List Int)) : Option (List Int) :=
  cands.foldl
    (fun a q =>
      match a with
      | none => some q
      | some s => if q.length < s.length then some q else some s)
    acc

/-- The spec's reading of win detection (§8): some starting cell and some
of the four directions give four consecutive in-bounds cells all holding the
player's mark. -/
def hasFourInARow (board : Board) (player : Player) : Prop :=
  ∃ (r : Fin 6) (c : Fin 7), ∃ dir ∈ directions,
    ∀ i : Fin 4,
      cellIs board player ((r : Int) + dir.1 * (i : Int)) ((c : Int) + dir.2 * (i : Int)) = true

/-- A board with a single disc: player 1 at the bottom of column 0
(a concrete gravity-respecting input for instantiations). -/
def oneDiscBoard : Board := dropPiece createBoard 5 0 .P1

/-- Player 1 holds rows 5, 4, 3 of column 3: dropping once more into
column 3 is an immediate vertical win for player 1. -/
def vertThreeBoard : Board :=
  dropPiece (dropPiece (dropPiece createBoard 5 3 .P1) 4 3 .P1) 3 3 .P1

/-!
Boards along one concrete branch of the depth-8 exploration of the empty
board: player 1 stacks column 3 while player 2 answers in columns 0, 1, 2;
`chainBoard7` is player 1's vertical four-in-a-row.
-/

def chainBoard1 : Board := dropPiece createBoard 5 3 .P1
def chainBoard2 : Board := dropPiece chainBoard1 5 0 .P2
def chainBoard3 : Board := dropPiece chainBoard2 4 3 .P1
def chainBoard4 : Board := dropPiece chainBoard3 5 1 .P2
def chainBoard5 : Board := dropPiece chainBoard4 3 3 .P1
def chainBoard6 : Board := dropPiece chainBoard5 5 2 .P2
def chainBoard7 : Board := dropPiece chainBoard6 2 3 .P1

/-! ### Board engine lemmas -/

theorem getAvailableRowLoop_some_empty {board : Board} {col : Fin 7}
    {L : List (Fin 6)} {row : Fin 6}
    (h : getAvailableRowLoop board col L = some row) : board row col = none := by
  induction L with
  | nil => simp [getAvailableRowLoop] at h
  | cons a rest ih =>
    by_cases ha : board a col = none
    · simp only [getAvailableRowLoop, if_pos ha, Option.some.injEq] at h
      exact h ▸ ha
    · simp only [getAvailableRowLoop, if_neg ha] at h
      exact ih h

theorem getAvailableRowLoop_none_iff {board : Board} {col : Fin 7}
    {L : List (Fin 6)} :
    getAvailableRowLoop board col L = none ↔ ∀ r ∈ L, board r col ≠ none := by
  induction L with
  | nil => simp [getAvailableRowLoop]
  | cons a rest ih =>
    by_cases ha : board a col = none
    · simp [getAvailableRowLoop, if_pos ha, ha]
    · simp [getAvailableRowLoop, if_neg ha, ha, ih]

theorem getAvailableRowLoop_some_iff {board : Board} {col : Fin 7}
    {L : List (Fin 6)} (hL : L.Pairwise fun a b => b < a) {row : Fin 6} :
    getAvailableRowLoop board col L = some row ↔
      row ∈ L ∧ board row col = none ∧ ∀ r ∈ L, row < r → board r col ≠ none := by
  induction L with
  | nil => simp [getAvailableRowLoop]
  | cons a rest ih =>
    have ha_gt : ∀ x ∈ rest, x < a := (List.pairwise_cons.mp hL).1
    have hrest := ih (List.pairwise_cons.mp hL).2
    by_cases ha : board a col = none
    · simp only [getAvailableRowLoop, if_pos ha, Option.some.injEq]
      constructor
      · rintro rfl
        refine ⟨List.mem_cons_self _ _, ha, ?_⟩
        intro r hr hlt
        rcases List.mem_cons.mp hr with rfl | hr'
        · exact absurd hlt (lt_irrefl _)
        · exact absurd hlt (not_lt.mpr (le_of_lt (ha_gt r hr')))
      · rintro ⟨hmem, hempty, habove⟩
        rcases List.mem_cons.mp hmem with rfl | hmem'
        · rfl
        · exact absurd ha (habove a (List.mem_cons_self _ _) (ha_gt row hmem'))
    · simp only [getAvailableRowLoop, if_neg ha, hrest]
      constructor
      · rintro ⟨hmem, hempty, habove⟩
        refine ⟨List.mem_cons_of_mem _ hmem, hempty, ?_⟩
        intro r hr hlt
        rcases List.mem_cons.mp hr with rfl | hr'
        · exact ha
        · exact habove r hr' hlt
      · rintro ⟨hmem, hempty, habove⟩
        rcases List.mem_cons.mp hmem with rfl | hmem'
        · exact absurd hempty ha
        · exact ⟨hmem', hempty, fun r hr hlt => habove r (List.mem_cons_of_mem _ hr) hlt⟩

theorem getAvailableRow_none_iff {board : Board} {col : Fin 7} :
    getAvailableRow board col = none ↔ ∀ r : Fin 6, board r col ≠ none := by
  unfold getAvailableRow
  rw [getAvailableRowLoop_none_iff]
  simp

theorem getAvailableRow_some_iff {board : Board} {col : Fin 7} {row : Fin 6} :
    getAvailableRow board col = some row ↔
      board row col = none ∧ ∀ r : Fin 6, row < r → board r col ≠ none := by
  unfold getAvailableRow
  rw [getAvailableRowLoop_some_iff (by decide)]
  simp

theorem getAvailableRow_some_empty {board : Board} {col : Fin 7} {row : Fin 6}
    (h : getAvailableRow board col = some row) : board row col = none :=
  getAvailableRowLoop_some_empty h

theorem emptyCount_dropPiece {board : Board} {row : Fin 6} {col : Fin 7}
    (player : Player) (h : board row col = none) :
    emptyCount (dropPiece board row col player) = emptyCount board - 1 := by
  unfold emptyCount
  have hset :
      (Finset.univ.filter fun rc : Fin 6 × Fin 7 =>
          dropPiece board row col player rc.1 rc.2 = none) =
        (Finset.univ.filter fun rc : Fin 6 × Fin 7 =>
          board rc.1 rc.2 = none).erase (row, col) := by
    ext rc
    simp only [Finset.mem_filter, Finset.mem_erase, Finset.mem_univ, true_and,
      dropPiece]
    constructor
    · intro hrc
      by_cases heq : rc.1 = row ∧ rc.2 = col
      · simp [heq] at hrc
      · refine ⟨?_, by simpa [heq] using hrc⟩
        intro hrceq
        exact heq ⟨by rw [hrceq], by rw [hrceq]⟩
    · rintro ⟨hne, hrc⟩
      have heq : ¬(rc.1 = row ∧ rc.2 = col) := by
        rintro ⟨h1, h2⟩
        exact hne (Prod.ext h1 h2)
      simpa [heq] using hrc
  rw [hset, Finset.card_erase_of_mem (by simp [h])]

theorem emptyCount_pos_of_empty {board : Board} {row : Fin 6} {col : Fin 7}
    (h : board row col = none) : 0 < emptyCount board := by
  apply Finset.card_pos.mpr
  exact ⟨(row, col), by simp [h]⟩

theorem getValidColumns_eq_nil_of_emptyCount_zero {board : Board}
    (h : emptyCount board = 0) : getValidColumns board = [] := by
  have hfull : ∀ (r : Fin 6) (c : Fin 7), board r c ≠ none := by
    intro r c hrc
    exact absurd h (Nat.pos_iff_ne_zero.mp (emptyCount_pos_of_empty hrc))
  unfold getValidColumns
  rw [List.filter_eq_nil_iff]
  intro col _
  cases havail : getAvailableRow board col with
  | none => simp [havail]
  | some row => exact absurd (getAvailableRow_some_empty havail) (hfull row col)

theorem mem_insertByCenter {col x : Fin 7} {L : List (Fin 7)} :
    x ∈ insertByCenter col L ↔ x = col ∨ x ∈ L := by
  induction L with
  | nil => simp [insertByCenter]
  | cons d rest ih =>
    by_cases hd : centerDistance d < centerDistance col
    · simp only [insertByCenter, if_pos hd, List.mem_cons, ih]
      tauto
    · simp only [insertByCenter, if_neg hd, List.mem_cons]

theorem mem_sortCenter {x : Fin 7} {L : List (Fin 7)} :
    x ∈ sortCenter L ↔ x ∈ L := by
  induction L with
  | nil => simp [sortCenter]
  | cons c rest ih =>
    simp only [sortCenter, List.foldr_cons] at *
    rw [mem_insertByCenter, ih, List.mem_cons]

theorem insertByCenter_ne_nil {col : Fin 7} {L : List (Fin 7)} :
    insertByCenter col L ≠ [] := by
  cases L with
  | nil => simp [insertByCenter]
  | cons d rest =>
    unfold insertByCenter
    split <;> simp

theorem sortCenter_eq_nil_iff {L : List (Fin 7)} : sortCenter L = [] ↔ L = [] := by
  cases L with
  | nil => simp [sortCenter]
  | cons c rest =>
    simp only [sortCenter, List.foldr_cons]
    exact ⟨fun h => absurd h insertByCenter_ne_nil, fun h => by simp at h⟩

theorem mem_getValidColumns {board : Board} {col : Fin 7} :
    col ∈ getValidColumns board ↔ (getAvailableRow board col).isSome := by
  unfold getValidColumns
  simp

/-! ### Forest induction and folds -/

theorem forest_deep_induction_aux {motive : GameForest → Prop}
    (hnil : motive .nil)
    (hcons : ∀ (m : Int) (oc : GameOutcome) (cs rest : GameForest),
      motive cs → motive rest → motive (.cons (.mk m oc cs) rest)) :
    ∀ (k : Nat) (f : GameForest), forestSize f ≤ k → motive f := by
  intro k
  induction k with
  | zero =>
    intro f hf
    cases f with
    | nil => exact hnil
    | cons n rest =>
      cases n with
      | mk m oc cs => simp [forestSize] at hf
  | succ k ih =>
    intro f hf
    cases f with
    | nil => exact hnil
    | cons n rest =>
      cases n with
      | mk m oc cs =>
        simp only [forestSize] at hf
        exact hcons m oc cs rest (ih cs (by omega)) (ih rest (by omega))

/-- Structural induction over a forest, recursing both into the head node's
children and into the remaining siblings. -/
theorem forest_deep_induction {motive : GameForest → Prop}
    (hnil : motive .nil)
    (hcons : ∀ (m : Int) (oc : GameOutcome) (cs rest : GameForest),
      motive cs → motive rest → motive (.cons (.mk m oc cs) rest))
    (f : GameForest) : motive f :=
  forest_deep_induction_aux hnil hcons (forestSize f) f (Nat.le_refl _)

theorem forestAny_iff {f : GameNode → Bool} {nodes : GameForest} :
    forestAny f nodes = true ↔ ∃ n ∈ nodes.toList, f n = true := by
  induction nodes using forest_deep_induction with
  | hnil => simp [forestAny, GameForest.toList]
  | hcons m oc cs rest ihc ihr => simp [forestAny, GameForest.toList, ihr]

theorem forestAll_iff {f : GameNode → Bool} {nodes : GameForest} :
    forestAll f nodes = true ↔ ∀ n ∈ nodes.toList, f n = true := by
  induction nodes using forest_deep_induction with
  | hnil => simp [forestAll, GameForest.toList]
  | hcons m oc cs rest ihc ihr => simp [forestAll, GameForest.toList, ihr]

/-! ### The explorers satisfy the source's fuel-free recursion -/

theorem exploreGameTree_unfold (board : Board) (p : Player) (d : Int) :
    exploreGameTree board p d =
      if d = 0 ∨ sortCenter (getValidColumns board) = [] then
        .cons (.mk (-1) .DRAW .nil) .nil
      else
        (sortCenter (getValidColumns board)).foldr
          (exploreStep board p (opponentOf p) d exploreGameTree) .nil := by
  unfold exploreGameTree
  cases hE : emptyCount board with
  | zero =>
    have hnil : getValidColumns board = [] := getValidColumns_eq_nil_of_emptyCount_zero hE
    simp [exploreAux, hnil, sortCenter]
  | succ k =>
    simp only [exploreAux]
    by_cases hc : d = 0 ∨ sortCenter (getValidColumns board) = []
    · simp [hc]
    · simp only [if_neg hc]
      congr 1
      funext col results
      simp only [exploreStep]
      cases hrow : getAvailableRow board col with
      | none => rfl
      | some row =>
        simp only
        have hdec : emptyCount (dropPiece board row col p) = k := by
          rw [emptyCount_dropPiece p (getAvailableRow_some_empty hrow), hE]
          omega
        rw [hdec]

theorem exploreAux_ne_nil (board : Board) (p : Player) (d : Int) (fuel : Nat) :
    exploreAux board p d fuel ≠ .nil := by
  cases fuel with
  | zero => simp [exploreAux]
  | succ k =>
    simp only [exploreAux]
    by_cases hc : d = 0 ∨ sortCenter (getValidColumns board) = []
    · simp [hc]
    · simp only [if_neg hc]
      push_neg at hc
      cases hL : sortCenter (getValidColumns board) with
      | nil => exact absurd hL hc.2
      | cons a L =>
        have ha : a ∈ getValidColumns board :=
          mem_sortCenter.mp (hL ▸ List.mem_cons_self a L)
        have hsome : (getAvailableRow board a).isSome := mem_getValidColumns.mp ha
        simp only [List.foldr_cons, exploreStep]
        cases hrow : getAvailableRow board a with
        | none => simp [hrow] at hsome
        | some row =>
          simp only
          split <;> simp

theorem exploreGameTree_ne_nil (board : Board) (p : Player) (d : Int) :
    exploreGameTree board p d ≠ .nil :=
  exploreAux_ne_nil board p d (emptyCount board)

theorem toList_eq_nil_iff {f : GameForest} : f.toList = [] ↔ f = .nil := by
  cases f <;> simp [GameForest.toList]

/-- Claim C10: the serial explorer is total for every integer depth budget,
negative ones included, and always returns a non-empty forest; the recursion
is grounded by the strict decrease of the number of empty cells at each
recursive call (one piece is dropped into an empty cell per ply). -/
theorem serial_explorer_total_nonempty_forest :
    (∀ (board : Board) (p : Player) (d : Int), (exploreGameTree board p d).toList ≠ []) ∧
    (∀ (board : Board) (col : Fin 7) (row : Fin 6) (p : Player),
      getAvailableRow board col = some row →
        emptyCount (dropPiece board row col p) < emptyCount board) := by
  constructor
  · intro board p d h
    exact exploreGameTree_ne_nil board p d (toList_eq_nil_iff.mp h)
  · intro board col row p h
    have hempty := getAvailableRow_some_empty h
    have hpos := emptyCount_pos_of_empty hempty
    rw [emptyCount_dropPiece p hempty]
    omega

/-- Claim C8: with an exhausted depth budget or no legal move left, both
explorers return the single sentinel node `{ move: -1, outcome: DRAW,
children: [] }`. -/
theorem explorers_terminal_sentinel (board : Board) (p : Player) (d : Int)
    (h : d = 0 ∨ getValidColumns board = []) :
    exploreGameTree board p d = .cons (.mk (-1) .DRAW .nil) .nil ∧
    exploreGameTreeSmart board p d = .cons (.mk (-1) .DRAW .nil) .nil := by
  have hc : d = 0 ∨ sortCenter (getValidColumns board) = [] := by
    rcases h with h | h
    · exact Or.inl h
    · exact Or.inr (by rw [h]; rfl)
  constructor
  · unfold exploreGameTree
    cases emptyCount board with
    | zero => rfl
    | succ k => simp [exploreAux, hc]
  · unfold exploreGameTreeSmart
    cases emptyCount board with
    | zero => rfl
    | succ k => simp [exploreSmartAux, hc]

/-- Witness for claim C8 at the concrete input (empty board, depth 0). -/
theorem explorers_terminal_sentinel_witness :
    exploreGameTree createBoard .P1 0 = .cons (.mk (-1) .DRAW .nil) .nil ∧
    exploreGameTreeSmart createBoard .P1 0 = .cons (.mk (-1) .DRAW .nil) .nil :=
  explorers_terminal_sentinel createBoard .P1 0 (Or.inl rfl)

/-! ### The tree invariant (claim C1) -/

theorem forestInv_sentinel (p : Player) :
    forestInv p (.cons (.mk (-1) .DRAW .nil) .nil) := by
  simp [forestInv]

theorem forestInv_shallowExpand (q : Player) (board : Board) (opp : Player) :
    forestInv q (shallowExpand board opp) := by
  unfold shallowExpand
  induction getValidColumns board with
  | nil => simp [forestInv]
  | cons a L ih =>
    simp only [List.foldr_cons]
    cases hrow : getAvailableRow board a with
    | none => exact ih
    | some row =>
      simp only
      split <;> exact ⟨by simp, trivial, ih⟩

theorem forestInv_exploreAux :
    ∀ (fuel : Nat) (board : Board) (p : Player) (d : Int),
      forestInv p (exploreAux board p d fuel) := by
  intro fuel
  induction fuel with
  | zero => intro board p d; exact forestInv_sentinel p
  | succ k ih =>
    intro board p d
    simp only [exploreAux]
    by_cases hc : d = 0 ∨ sortCenter (getValidColumns board) = []
    · simp only [if_pos hc]; exact forestInv_sentinel p
    · simp only [if_neg hc]
      induction sortCenter (getValidColumns board) with
      | nil => simp [forestInv]
      | cons a L ihL =>
        simp only [List.foldr_cons, exploreStep]
        cases hrow : getAvailableRow board a with
        | none => exact ihL
        | some row =>
          simp only
          by_cases hwin : isWinningMove (dropPiece board row a p) p = true
          · simp only [if_pos hwin]
            exact ⟨by simp, trivial, ihL⟩
          · simp only [if_neg hwin]
            exact ⟨fun _ => rfl, ih _ _ _, ihL⟩

theorem forestInv_cons {p : Player} {m : Int} {oc : GameOutcome} {cs rest : GameForest}
    (h1 : cs ≠ .nil → oc = summarizeOutcomes cs p)
    (h2 : forestInv (opponentOf p) cs) (h3 : forestInv p rest) :
    forestInv p (.cons (.mk m oc cs) rest) :=
  ⟨h1, h2, h3⟩

theorem forestInv_exploreSmartAux :
    ∀ (fuel : Nat) (board : Board) (p : Player) (d : Int),
      forestInv p (exploreSmartAux board p d fuel) := by
  intro fuel
  induction fuel with
  | zero => intro board p d; exact forestInv_sentinel p
  | succ k ih =>
    intro board p d
    simp only [exploreSmartAux]
    by_cases hc : d = 0 ∨ sortCenter (getValidColumns board) = []
    · simp only [if_pos hc]; exact forestInv_sentinel p
    · simp only [if_neg hc]
      have key :
          ∀ L : List (Fin 7),
            (match L.foldr (exploreSmartStep board p (opponentOf p) d
                (fun b p' d' => exploreSmartAux b p' d' k)) (Sum.inr GameForest.nil) with
             | Sum.inl n => forestInv p (GameForest.cons n GameForest.nil)
             | Sum.inr l => forestInv p l) := by
        intro L
        induction L with
        | nil => simp [forestInv]
        | cons a L ihL =>
          simp only [List.foldr_cons, exploreSmartStep]
          cases hrow : getAvailableRow board a with
          | none => exact ihL
          | some row =>
            simp only
            have hchild : forestInv (opponentOf p)
                (if d ≤ 3 then shallowExpand (dropPiece board row a p) (opponentOf p)
                 else exploreSmartAux (dropPiece board row a p) (opponentOf p) (d - 1) k) := by
              split
              · exact forestInv_shallowExpand _ _ _
              · exact ih _ _ _
            by_cases hwin : isWinningMove (dropPiece board row a p) p = true
            · simp only [if_pos hwin]
              exact forestInv_cons (fun h => absurd rfl h) trivial trivial
            · simp only [if_neg hwin]
              by_cases hoc : summarizeOutcomes
                  (if d ≤ 3 then shallowExpand (dropPiece board row a p) (opponentOf p)
                   else exploreSmartAux (dropPiece board row a p) (opponentOf p) (d - 1) k) p
                  = winOf p
              · simp only [if_pos hoc]
                exact forestInv_cons (fun _ => rfl) hchild trivial
              · simp only [if_neg hoc]
                cases hfold : L.foldr (exploreSmartStep board p (opponentOf p) d
                    (fun b p' d' => exploreSmartAux b p' d' k)) (Sum.inr GameForest.nil) with
                | inl n =>
                  rw [hfold] at ihL
                  exact ihL
                | inr rest =>
                  rw [hfold] at ihL
                  exact forestInv_cons (fun _ => rfl) hchild ihL
      cases hfold : (sortCenter (getValidColumns board)).foldr (exploreSmartStep board p
          (opponentOf p) d (fun b p' d' => exploreSmartAux b p' d' k))
          (Sum.inr GameForest.nil) with
      | inl n =>
        have := key (sortCenter (getValidColumns board))
        rw [hfold] at this
        exact this
      | inr results =>
        have := key (sortCenter (getValidColumns board))
        rw [hfold] at this
        exact this

/-- Claim C1: in every forest either explorer returns, every node with a
non-empty children list has its outcome equal to `summarize(children, mover)`,
where the mover alternates ply by ply starting from the player passed at the
root (`forestInv` states exactly this, flipping the player on children). -/
theorem tree_invariant_both_explorers (board : Board) (p : Player) (d : Int) :
    forestInv p (exploreGameTree board p d) ∧
    forestInv p (exploreGameTreeSmart board p d) :=
  ⟨forestInv_exploreAux (emptyCount board) board p d,
   forestInv_exploreSmartAux (emptyCount board) board p d⟩

/-! ### Summarization (claim C3) -/

theorem winOf_ne_loseOf (p : Player) : winOf p ≠ loseOf p := by
  cases p <;> decide

theorem winOf_ne_DRAW (p : Player) : winOf p ≠ .DRAW := by
  cases p <;> decide

theorem loseOf_ne_DRAW (p : Player) : loseOf p ≠ .DRAW := by
  cases p <;> decide

/-- Claim C3: `summarizeOutcomes` returns the mover's win iff some child
carries the mover's win; failing that it returns the mover's loss iff every
child carries the mover's loss; in every remaining case it returns `DRAW`. -/
theorem summarizeOutcomes_characterization (nodes : GameForest) (player : Player) :
    (summarizeOutcomes nodes player = winOf player ↔
      ∃ n ∈ nodes.toList, n.outcome = winOf player) ∧
    (summarizeOutcomes nodes player = loseOf player ↔
      (¬(∃ n ∈ nodes.toList, n.outcome = winOf player) ∧
        ∀ n ∈ nodes.toList, n.outcome = loseOf player)) ∧
    (summarizeOutcomes nodes player = .DRAW ↔
      (¬(∃ n ∈ nodes.toList, n.outcome = winOf player) ∧
        ¬(∀ n ∈ nodes.toList, n.outcome = loseOf player))) := by
  have hwl := winOf_ne_loseOf player
  have hwd := winOf_ne_DRAW player
  have hld := loseOf_ne_DRAW player
  unfold summarizeOutcomes
  by_cases hA : forestAny (fun n => n.outcome = winOf player) nodes = true
  · have hex : ∃ n ∈ nodes.toList, n.outcome = winOf player := by
      have := forestAny_iff.mp hA
      simpa using this
    simp only [hA, if_true]
    exact ⟨iff_of_true (by trivial) hex,
      iff_of_false hwl fun h => h.1 hex,
      iff_of_false hwd fun h => h.1 hex⟩
  · have hnex : ¬∃ n ∈ nodes.toList, n.outcome = winOf player := by
      intro hex
      apply hA
      apply forestAny_iff.mpr
      simpa using hex
    simp only [Bool.not_eq_true] at hA
    simp only [hA, Bool.false_eq_true, if_false]
    by_cases hB : forestAll (fun n => n.outcome = loseOf player) nodes = true
    · have hall : ∀ n ∈ nodes.toList, n.outcome = loseOf player := by
        have := forestAll_iff.mp hB
        simpa using this
      simp only [hB, if_true]
      exact ⟨iff_of_false (Ne.symm hwl) hnex,
        iff_of_true (by trivial) ⟨hnex, hall⟩,
        iff_of_false hld fun h => h.2 hall⟩
    · have hnall : ¬∀ n ∈ nodes.toList, n.outcome = loseOf player := by
        intro hall
        apply hB
        apply forestAll_iff.mpr
        simpa using hall
      simp only [Bool.not_eq_true] at hB
      simp only [hB, Bool.false_eq_true, if_false]
      exact ⟨iff_of_false (Ne.symm hwd) hnex,
        iff_of_false (Ne.symm hld) fun h => hnall h.2,
        iff_of_true (by trivial) ⟨hnex, hnall⟩⟩

/-! ### Win detection (claim C4) -/

theorem cellIs_fin (board : Board) (player : Player) (r : Fin 6) (c : Fin 7) :
    cellIs board player ((r : Int)) ((c : Int)) = true ↔ board r c = some player := by
  have hr : (0 : Int) ≤ (r : Int) ∧ (r : Int) < 6 ∧ (0 : Int) ≤ (c : Int) ∧ (c : Int) < 7 := by
    refine ⟨Int.natCast_nonneg _, ?_, Int.natCast_nonneg _, ?_⟩
    · exact_mod_cast r.isLt
    · exact_mod_cast c.isLt
  unfold cellIs
  rw [dif_pos hr]
  have h1 : (⟨((r : Int)).toNat, by omega⟩ : Fin 6) = r := by
    apply Fin.ext
    simp
  have h2 : (⟨((c : Int)).toNat, by omega⟩ : Fin 7) = c := by
    apply Fin.ext
    simp
  rw [h1, h2]
  simp

/-- Claim C4: `isWinningMove(board, player)` is true iff some starting cell
and one of the four directions give four consecutive in-bounds cells all
holding the player's mark. -/
theorem isWinningMove_iff_hasFourInARow (board : Board) (player : Player) :
    isWinningMove board player = true ↔ hasFourInARow board player := by
  unfold isWinningMove hasFourInARow
  simp only [List.any_eq_true, List.mem_finRange, Bool.and_eq_true, decide_eq_true_eq,
    beq_iff_eq, true_and]
  constructor
  · rintro ⟨r, ⟨c, hstart, dir, hdir, hcount⟩⟩
    refine ⟨r, c, dir, hdir, ?_⟩
    have hall : ∀ i ∈ List.range 4,
        (fun i => cellIs board player ((r : Int) + dir.1 * i) ((c : Int) + dir.2 * i)) i = true := by
      apply List.countP_eq_length.mp
      simpa using hcount
    intro i
    have := hall (i : Nat) (List.mem_range.mpr i.isLt)
    simpa using this
  · rintro ⟨r, c, dir, hdir, hcells⟩
    refine ⟨r, c, ?_, dir, hdir, ?_⟩
    · have h0 := hcells 0
      simp only [Fin.val_zero, Int.Nat.cast_ofNat_Int] at h0
      have : cellIs board player ((r : Int)) ((c : Int)) = true := by
        simpa using h0
      exact (cellIs_fin board player r c).mp this
    · have : ∀ i ∈ List.range 4,
          (fun i => cellIs board player ((r : Int) + dir.1 * i) ((c : Int) + dir.2 * i)) i = true := by
        intro i hi
        have hi4 : i < 4 := List.mem_range.mp hi
        have := hcells ⟨i, hi4⟩
        simpa using this
      have := List.countP_eq_length.mpr this
      simpa using this

/-! ### Legal-move enumeration (claim C7) -/

/-- Claim C7: on a board respecting gravity, `getAvailableRow` returns
"none" iff the column is full, equivalently iff the column's top cell
(row 0) is occupied; otherwise it returns the unique lowest empty row: an
empty cell below which every cell of the column is occupied. -/
theorem getAvailableRow_characterization (board : Board) (col : Fin 7)
    (hg : Gravity board) :
    (getAvailableRow board col = none ↔ ∀ r : Fin 6, board r col ≠ none) ∧
    (getAvailableRow board col = none ↔ board 0 col ≠ none) ∧
    (∀ row : Fin 6, getAvailableRow board col = some row ↔
      (board row col = none ∧ ∀ r : Fin 6, row < r → board r col ≠ none)) := by
  refine ⟨getAvailableRow_none_iff, ?_, fun row => getAvailableRow_some_iff⟩
  rw [getAvailableRow_none_iff]
  constructor
  · intro hfull
    exact hfull 0
  · intro htop r hr
    exact htop (hg r col hr 0 (Fin.zero_le r))

/-- Witness for claim C7: one disc at the bottom of column 0 respects
gravity; the characterization is instantiated at column 0. -/
theorem getAvailableRow_characterization_witness :
    Gravity oneDiscBoard ∧
    ((getAvailableRow oneDiscBoard 0 = none ↔ ∀ r : Fin 6, oneDiscBoard r 0 ≠ none) ∧
     (getAvailableRow oneDiscBoard 0 = none ↔ oneDiscBoard 0 0 ≠ none) ∧
     (∀ row : Fin 6, getAvailableRow oneDiscBoard 0 = some row ↔
       (oneDiscBoard row 0 = none ∧ ∀ r : Fin 6, row < r → oneDiscBoard r 0 ≠ none))) :=
  ⟨by decide, getAvailableRow_characterization oneDiscBoard 0 (by decide)⟩

/-! ### Early exit on an immediate win (claim C2) -/

theorem smartFold_inl_of_win (board : Board) (p opp : Player) (d : Int)
    (recur : Board → Player → Int → GameForest) :
    ∀ (L : List (Fin 7)) (init : GameNode ⊕ GameForest),
      (∃ col ∈ L, ∃ row, getAvailableRow board col = some row ∧
        isWinningMove (dropPiece board row col p) p = true) →
      ∃ n, L.foldr (exploreSmartStep board p opp d recur) init = Sum.inl n ∧
        n.outcome = winOf p := by
  intro L
  induction L with
  | nil => intro init h; simp at h
  | cons a L ih =>
    intro init h
    rcases h with ⟨col, hcolmem, row, hrow, hw⟩
    rcases List.mem_cons.mp hcolmem with rfl | hmem
    · simp only [List.foldr_cons, exploreSmartStep, hrow]
      rw [if_pos hw]
      exact ⟨_, rfl, rfl⟩
    · obtain ⟨n', hn', hout⟩ := ih init ⟨col, hmem, row, hrow, hw⟩
      simp only [List.foldr_cons, exploreSmartStep, hn']
      cases hrowa : getAvailableRow board a with
      | none => exact ⟨n', rfl, hout⟩
      | some rowa =>
        simp only
        by_cases hwa : isWinningMove (dropPiece board rowa a p) p = true
        · rw [if_pos hwa]
          exact ⟨_, rfl, rfl⟩
        · rw [if_neg hwa]
          by_cases hoc : summarizeOutcomes
              (if d ≤ 3 then shallowExpand (dropPiece board rowa a p) opp
               else recur (dropPiece board rowa a p) opp (d - 1)) p = winOf p
          · rw [if_pos hoc]
            exact ⟨_, rfl, hoc⟩
          · rw [if_neg hoc]
            exact ⟨n', rfl, hout⟩

/-- Claim C2 (amended): if some candidate column's placement is an immediate
win for the mover and the depth budget is non-zero, `exploreGameTreeSmart`
returns a forest of exactly one node, and that node's outcome is the mover's
win — the early `return` discards the accumulated siblings and stops the
ply's exploration. (The serial `exploreGameTree` has no such early exit; see
the counterexample.) -/
theorem smart_explorer_win_early_exit (board : Board) (p : Player) (d : Int)
    (hd : d ≠ 0)
    (hwin : ∃ col ∈ sortCenter (getValidColumns board), ∃ row,
      getAvailableRow board col = some row ∧
      isWinningMove (dropPiece board row col p) p = true) :
    (exploreGameTreeSmart board p d).toList.length = 1 ∧
    ∀ n ∈ (exploreGameTreeSmart board p d).toList, n.outcome = winOf p := by
  have hpos : 0 < emptyCount board := by
    obtain ⟨col, _, row, hrow, _⟩ := hwin
    exact emptyCount_pos_of_empty (getAvailableRow_some_empty hrow)
  have hnonnil : sortCenter (getValidColumns board) ≠ [] := by
    obtain ⟨col, hcol, _⟩ := hwin
    exact fun hnil => by simp [hnil] at hcol
  unfold exploreGameTreeSmart
  cases hE : emptyCount board with
  | zero => omega
  | succ k =>
    simp only [exploreSmartAux]
    rw [if_neg (by tauto)]
    obtain ⟨n, hfold, hout⟩ :=
      smartFold_inl_of_win board p (opponentOf p) d
        (fun b p' d' => exploreSmartAux b p' d' k)
        (sortCenter (getValidColumns board)) (Sum.inr GameForest.nil) hwin
    rw [hfold]
    constructor
    · rfl
    · intro n' hn'
      have : n' = n := by
        simpa [GameForest.toList] using hn'
      rw [this]
      exact hout

/-- Witness for the amended claim C2 at a concrete input: player 1 already
holds rows 5, 4, 3 of column 3 and moves at depth 1. -/
theorem smart_explorer_win_early_exit_witness :
    ((1 : Int) ≠ 0) ∧
    (∃ col ∈ sortCenter (getValidColumns vertThreeBoard), ∃ row,
      getAvailableRow vertThreeBoard col = some row ∧
      isWinningMove (dropPiece vertThreeBoard row col .P1) .P1 = true) ∧
    ((exploreGameTreeSmart vertThreeBoard .P1 1).toList.length = 1 ∧
     ∀ n ∈ (exploreGameTreeSmart vertThreeBoard .P1 1).toList, n.outcome = winOf .P1) :=
  ⟨by decide, by decide,
    smart_explorer_win_early_exit vertThreeBoard .P1 1 (by decide) (by decide)⟩

/-- Counterexample to claim C2 as stated: on the board where player 1
already holds rows 5, 4, 3 of column 3, with a positive depth budget and an
immediately winning candidate column available, the serial explorer
(src/pasOpti.ts) returns all seven candidate nodes — the winning node is in
the list but the siblings are neither discarded nor skipped. -/
theorem serial_explorer_no_early_exit_counterexample :
    ((0 : Int) < 1) ∧
    (∃ col ∈ sortCenter (getValidColumns vertThreeBoard), ∃ row,
      getAvailableRow vertThreeBoard col = some row ∧
      isWinningMove (dropPiece vertThreeBoard row col .P1) .P1 = true) ∧
    (exploreGameTree vertThreeBoard .P1 1).toList.length = 7 ∧
    forestAny (fun n => n.outcome = winOf .P1) (exploreGameTree vertThreeBoard .P1 1) = true := by
  decide

/-! ### The path extractor (claims C5, C6) -/

theorem pickBest_nil (acc : Option (List Int)) : pickBest acc [] = acc := rfl

theorem pickBest_append (acc : Option (List Int)) (A B : List (List Int)) :
    pickBest acc (A ++ B) = pickBest (pickBest acc A) B := by
  simp [pickBest, List.foldl_append]

theorem pickBest_eq_none_iff {acc : Option (List Int)} {cands : List (List Int)} :
    pickBest acc cands = none ↔ acc = none ∧ cands = [] := by
  induction cands generalizing acc with
  | nil => simp [pickBest]
  | cons q rest ih =>
    cases acc with
    | none =>
      have hstep : pickBest none (q :: rest) = pickBest (some q) rest := rfl
      rw [hstep, ih]
      simp
    | some s =>
      have hstep : pickBest (some s) (q :: rest) =
          pickBest (if q.length < s.length then some q else some s) rest := rfl
      rw [hstep, ih]
      constructor
      · rintro ⟨h, -⟩
        split at h <;> simp at h
      · rintro ⟨h, -⟩
        simp at h

theorem pickBest_some_spec :
    ∀ (cands : List (List Int)) (acc : Option (List Int)) (s : List Int),
      pickBest acc cands = some s →
        (acc = some s ∨ s ∈ cands) ∧ (∀ q ∈ cands, s.length ≤ q.length) ∧
          (∀ s₀, acc = some s₀ → s.length ≤ s₀.length) := by
  intro cands
  induction cands with
  | nil =>
    intro acc s h
    refine ⟨Or.inl h, by simp, ?_⟩
    intro s₀ h₀
    rw [h₀] at h
    cases h
    exact Nat.le_refl _
  | cons q rest ih =>
    intro acc s h
    cases acc with
    | none =>
      have hstep : pickBest none (q :: rest) = pickBest (some q) rest := rfl
      rw [hstep] at h
      obtain ⟨h1, h2, h3⟩ := ih _ s h
      have hq : s.length ≤ q.length := h3 q rfl
      refine ⟨?_, ?_, by simp⟩
      · rcases h1 with h1 | h1
        · cases h1
          exact Or.inr (List.mem_cons_self _ _)
        · exact Or.inr (List.mem_cons_of_mem _ h1)
      · intro q' hq'
        rcases List.mem_cons.mp hq' with rfl | hq'
        · exact hq
        · exact h2 q' hq'
    | some s₀ =>
      have hstep : pickBest (some s₀) (q :: rest) =
          pickBest (if q.length < s₀.length then some q else some s₀) rest := rfl
      rw [hstep] at h
      by_cases hlt : q.length < s₀.length
      · rw [if_pos hlt] at h
        obtain ⟨h1, h2, h3⟩ := ih _ s h
        have hq : s.length ≤ q.length := h3 q rfl
        refine ⟨?_, ?_, ?_⟩
        · rcases h1 with h1 | h1
          · cases h1
            exact Or.inr (List.mem_cons_self _ _)
          · exact Or.inr (List.mem_cons_of_mem _ h1)
        · intro q' hq'
          rcases List.mem_cons.mp hq' with rfl | hq'
          · exact hq
          · exact h2 q' hq'
        · intro s₁ h₁
          cases h₁
          omega
      · rw [if_neg hlt] at h
        obtain ⟨h1, h2, h3⟩ := ih _ s h
        have hs₀ : s.length ≤ s₀.length := h3 s₀ rfl
        refine ⟨?_, ?_, ?_⟩
        · rcases h1 with h1 | h1
          · exact Or.inl h1
          · exact Or.inr (List.mem_cons_of_mem _ h1)
        · intro q' hq'
          rcases List.mem_cons.mp hq' with rfl | hq'
          · omega
          · exact h2 q' hq'
        · intro s₁ h₁
          cases h₁
          exact hs₀

theorem dfsForest_eq_pickBest (t : GameOutcome) (f : GameForest) :
    ∀ (path : List Int) (acc : Option (List Int)),
      dfsForest t path acc f = pickBest acc ((hitPaths t f).map (path ++ ·)) := by
  induction f using forest_deep_induction with
  | hnil => intro path acc; simp [dfsForest, hitPaths, pickBest]
  | hcons m oc cs rest ihc ihr =>
    intro path acc
    cases cs with
    | nil =>
      simp only [dfsForest, hitPaths]
      rw [ihr, List.map_append, pickBest_append]
      congr 1
      by_cases hoc : oc = t
      · simp only [if_pos hoc]
        rfl
      · simp only [if_neg hoc]
        rfl
    | cons c cr =>
      simp only [dfsForest, hitPaths]
      rw [ihr, ihc, List.map_append, pickBest_append]
      congr 2
      rw [List.map_map]
      apply List.map_congr_left
      intro q hq
      simp [Function.comp]

theorem findShortestWinningPath_eq_pickBest (nodes : GameForest) (target : GameOutcome) :
    findShortestWinningPath nodes target = pickBest none (hitPaths target nodes) := by
  unfold findShortestWinningPath
  rw [dfsForest_eq_pickBest]
  congr 1
  simp

theorem hitPaths_eq_nil_iff (target : GameOutcome) (f : GameForest) :
    hitPaths target f = [] ↔
      ∀ n ∈ forestNodes f, ¬(n.outcome = target ∧ n.children = .nil) := by
  induction f using forest_deep_induction with
  | hnil => simp [hitPaths, forestNodes]
  | hcons m oc cs rest ihc ihr =>
    cases cs with
    | nil =>
      simp only [hitPaths, forestNodes, List.append_eq_nil, List.mem_cons, List.mem_append]
      constructor
      · rintro ⟨hpart, hrest⟩
        intro n hn
        rcases hn with rfl | hn | hn
        · simp only [GameNode.outcome, GameNode.children]
          rintro ⟨rfl, -⟩
          simp at hpart
        · simp [forestNodes] at hn
        · exact (ihr.mp hrest) n hn
      · intro h
        constructor
        · have := h (GameNode.mk m oc .nil) (Or.inl rfl)
          simp only [GameNode.outcome, GameNode.children] at this
          by_cases hoc : oc = target
          · exact absurd ⟨hoc, by trivial⟩ this
          · simp [hoc]
        · exact ihr.mpr fun n hn => h n (Or.inr (Or.inr hn))
    | cons c cr =>
      simp only [hitPaths, forestNodes, List.append_eq_nil, List.mem_cons, List.mem_append,
        List.map_eq_nil_iff]
      constructor
      · rintro ⟨hpart, hrest⟩
        intro n hn
        rcases hn with rfl | hn | hn
        · simp only [GameNode.children]
          rintro ⟨-, h⟩
          cases h
        · exact (ihc.mp hpart) n hn
        · exact (ihr.mp hrest) n hn
      · intro h
        exact ⟨ihc.mpr fun n hn => h n (Or.inr (Or.inl hn)),
          ihr.mpr fun n hn => h n (Or.inr (Or.inr hn))⟩

/-- Claim C6: `findShortestWinningPath` returns "none" iff no node anywhere
in the forest has the target outcome together with an empty children list;
"none" is an ordinary `Option` value, not an error. -/
theorem findShortestWinningPath_none_iff (nodes : GameForest) (target : GameOutcome) :
    findShortestWinningPath nodes target = none ↔
      ∀ n ∈ forestNodes nodes, ¬(n.outcome = target ∧ n.children = .nil) := by
  rw [findShortestWinningPath_eq_pickBest, pickBest_eq_none_iff]
  simp [hitPaths_eq_nil_iff]

/-- Claim C5: a returned sequence is the root-to-node move path of a hit
node (outcome = target, no children), and no hit node anywhere in the
forest has a strictly shorter root path. -/
theorem findShortestWinningPath_minimal (nodes : GameForest) (target : GameOutcome)
    (s : List Int) (h : findShortestWinningPath nodes target = some s) :
    s ∈ hitPaths target nodes ∧ ∀ q ∈ hitPaths target nodes, s.length ≤ q.length := by
  rw [findShortestWinningPath_eq_pickBest] at h
  obtain ⟨h1, h2, -⟩ := pickBest_some_spec _ _ _ h
  rcases h1 with h1 | h1
  · cases h1
  · exact ⟨h1, h2⟩

/-- Witness for claim C5 at a concrete input: the serial exploration of
`vertThreeBoard` at depth 1, whose single hit path for `WIN_P1` is `[3]`. -/
theorem findShortestWinningPath_minimal_witness :
    findShortestWinningPath (exploreGameTree vertThreeBoard .P1 1) .WIN_P1 = some [3] ∧
    ([3] ∈ hitPaths .WIN_P1 (exploreGameTree vertThreeBoard .P1 1) ∧
      ∀ q ∈ hitPaths .WIN_P1 (exploreGameTree vertThreeBoard .P1 1),
        ([3] : List Int).length ≤ q.length) :=
  ⟨by decide, findShortestWinningPath_minimal _ _ _ (by decide)⟩

/-! ### The depth-8 scenario on the empty board (claim C9) -/

theorem win_node_mem_exploreGameTree (board : Board) (p : Player) (d : Int)
    (col : Fin 7) (row : Fin 6) (hd : d ≠ 0)
    (hcol : col ∈ sortCenter (getValidColumns board))
    (hrow : getAvailableRow board col = some row)
    (hwin : isWinningMove (dropPiece board row col p) p = true) :
    GameNode.mk (col : Int) (winOf p) .nil ∈ (exploreGameTree board p d).toList := by
  rw [exploreGameTree_unfold]
  have hnonnil : sortCenter (getValidColumns board) ≠ [] := fun hnil => by simp [hnil] at hcol
  rw [if_neg (by tauto)]
  revert hcol
  induction sortCenter (getValidColumns board) with
  | nil => intro hcol; exact absurd hcol (List.not_mem_nil _)
  | cons a L ihL =>
    intro hcol
    rcases List.mem_cons.mp hcol with rfl | hmem
    · simp only [List.foldr_cons, exploreStep, hrow]
      rw [if_pos hwin]
      exact List.mem_cons_self _ _
    · simp only [List.foldr_cons, exploreStep]
      cases hrowa : getAvailableRow board a with
      | none => exact ihL hmem
      | some rowa =>
        simp only
        split
        · exact List.mem_cons_of_mem _ (ihL hmem)
        · exact List.mem_cons_of_mem _ (ihL hmem)

theorem node_mem_exploreGameTree (board : Board) (p : Player) (d : Int)
    (col : Fin 7) (row : Fin 6) (hd : d ≠ 0)
    (hcol : col ∈ sortCenter (getValidColumns board))
    (hrow : getAvailableRow board col = some row)
    (hwin : isWinningMove (dropPiece board row col p) p = false) :
    GameNode.mk (col : Int)
      (summarizeOutcomes (exploreGameTree (dropPiece board row col p) (opponentOf p) (d - 1)) p)
      (exploreGameTree (dropPiece board row col p) (opponentOf p) (d - 1))
      ∈ (exploreGameTree board p d).toList := by
  rw [exploreGameTree_unfold]
  have hnonnil : sortCenter (getValidColumns board) ≠ [] := fun hnil => by simp [hnil] at hcol
  rw [if_neg (by tauto)]
  revert hcol
  induction sortCenter (getValidColumns board) with
  | nil => intro hcol; exact absurd hcol (List.not_mem_nil _)
  | cons a L ihL =>
    intro hcol
    rcases List.mem_cons.mp hcol with rfl | hmem
    · simp only [List.foldr_cons, exploreStep, hrow]
      rw [if_neg (by rw [hwin]; exact Bool.false_ne_true)]
      exact List.mem_cons_self _ _
    · simp only [List.foldr_cons, exploreStep]
      cases hrowa : getAvailableRow board a with
      | none => exact ihL hmem
      | some rowa =>
        simp only
        split
        · exact List.mem_cons_of_mem _ (ihL hmem)
        · exact List.mem_cons_of_mem _ (ihL hmem)

theorem hitPaths_ne_nil_of_mem_leaf {t : GameOutcome} {f : GameForest} {m : Int}
    (hm : GameNode.mk m t .nil ∈ f.toList) : hitPaths t f ≠ [] := by
  induction f using forest_deep_induction with
  | hnil => simp [GameForest.toList] at hm
  | hcons m' oc cs rest ihc ihr =>
    simp only [GameForest.toList, List.mem_cons] at hm
    rcases hm with heq | hm
    · injection heq with h1 h2 h3
      subst h2 h3
      simp [hitPaths]
    · have := ihr hm
      simp only [hitPaths]
      intro hnil
      exact this (List.append_eq_nil.mp hnil).2

theorem hitPaths_ne_nil_of_mem_node {t : GameOutcome} {f : GameForest} {m : Int}
    {oc : GameOutcome} {cs : GameForest}
    (hm : GameNode.mk m oc cs ∈ f.toList) (hcs : cs ≠ .nil)
    (hchild : hitPaths t cs ≠ []) : hitPaths t f ≠ [] := by
  induction f using forest_deep_induction with
  | hnil => simp [GameForest.toList] at hm
  | hcons m' oc' cs' rest ihc ihr =>
    simp only [GameForest.toList, List.mem_cons] at hm
    rcases hm with heq | hm
    · injection heq with h1 h2 h3
      subst h2 h3
      cases cs with
      | nil => exact absurd rfl hcs
      | cons c cr =>
        simp only [hitPaths]
        intro hnil
        have := (List.append_eq_nil.mp hnil).1
        exact hchild (List.map_eq_nil_iff.mp this)
    · have := ihr hm
      simp only [hitPaths]
      intro hnil
      exact this (List.append_eq_nil.mp hnil).2

theorem hitPaths_parity_exploreAux :
    ∀ (fuel : Nat) (board : Board) (p : Player) (d : Int) (q : List Int),
      q ∈ hitPaths .WIN_P1 (exploreAux board p d fuel) →
        q.length % 2 = (if p = .P1 then 1 else 0) := by
  intro fuel
  induction fuel with
  | zero =>
    intro board p d q hq
    simp [exploreAux, hitPaths] at hq
  | succ k ih =>
    intro board p d q hq
    simp only [exploreAux] at hq
    by_cases hc : d = 0 ∨ sortCenter (getValidColumns board) = []
    · rw [if_pos hc] at hq
      simp [hitPaths] at hq
    · rw [if_neg hc] at hq
      revert hq
      induction sortCenter (getValidColumns board) with
      | nil => intro hq; simp [hitPaths] at hq
      | cons a L ihL =>
        intro hq
        simp only [List.foldr_cons, exploreStep] at hq
        cases hrowa : getAvailableRow board a with
        | none =>
          rw [hrowa] at hq
          exact ihL hq
        | some rowa =>
          rw [hrowa] at hq
          simp only at hq
          by_cases hwa : isWinningMove (dropPiece board rowa a p) p = true
          · rw [if_pos hwa] at hq
            simp only [hitPaths] at hq
            rcases List.mem_append.mp hq with h | h
            · cases p with
              | P1 =>
                simp [winOf] at h
                subst h
                simp
              | P2 =>
                simp [winOf] at h
            · exact ihL h
          · rw [if_neg hwa] at hq
            have hne : exploreAux (dropPiece board rowa a p) (opponentOf p) (d - 1) k ≠ .nil :=
              exploreAux_ne_nil _ _ _ _
            cases hch : exploreAux (dropPiece board rowa a p) (opponentOf p) (d - 1) k with
            | nil => exact absurd hch hne
            | cons c cr =>
              rw [hch] at hq
              simp only [hitPaths] at hq
              rcases List.mem_append.mp hq with h | h
              · obtain ⟨q', hq', rfl⟩ := List.mem_map.mp h
                have hpar := ih (dropPiece board rowa a p) (opponentOf p) (d - 1) q'
                  (by rw [hch]; exact hq')
                cases p with
                | P1 =>
                  simp [opponentOf] at hpar ⊢
                  omega
                | P2 =>
                  simp [opponentOf] at hpar ⊢
                  omega
              · exact ihL h

/-- Claim C9: exploring the empty board for player 1 with depth budget 8,
the extractor finds a winning path for `WIN_P1`: the result is `some`
sequence, non-empty, of odd length — so 0-based even indices are player 1's
plies and odd indices player 2's, ending on a player-1 winning move. -/
theorem empty_board_depth8_winning_path :
    ∃ s, findShortestWinningPath (exploreGameTree createBoard .P1 8) .WIN_P1 = some s ∧
      s ≠ [] ∧ s.length % 2 = 1 := by
  have h6 := win_node_mem_exploreGameTree chainBoard6 .P1 2 3 2
    (by decide) (by decide) (by decide) (by decide)
  have p6 : hitPaths .WIN_P1 (exploreGameTree chainBoard6 .P1 2) ≠ [] :=
    hitPaths_ne_nil_of_mem_leaf h6
  have h5 := node_mem_exploreGameTree chainBoard5 .P2 3 2 5
    (by decide) (by decide) (by decide) (by decide)
  have p5 : hitPaths .WIN_P1 (exploreGameTree chainBoard5 .P2 3) ≠ [] :=
    hitPaths_ne_nil_of_mem_node h5 (exploreGameTree_ne_nil _ _ _) p6
  have h4 := node_mem_exploreGameTree chainBoard4 .P1 4 3 3
    (by decide) (by decide) (by decide) (by decide)
  have p4 : hitPaths .WIN_P1 (exploreGameTree chainBoard4 .P1 4) ≠ [] :=
    hitPaths_ne_nil_of_mem_node h4 (exploreGameTree_ne_nil _ _ _) p5
  have h3 := node_mem_exploreGameTree chainBoard3 .P2 5 1 5
    (by decide) (by decide) (by decide) (by decide)
  have p3 : hitPaths .WIN_P1 (exploreGameTree chainBoard3 .P2 5) ≠ [] :=
    hitPaths_ne_nil_of_mem_node h3 (exploreGameTree_ne_nil _ _ _) p4
  have h2 := node_mem_exploreGameTree chainBoard2 .P1 6 3 4
    (by decide) (by decide) (by decide) (by decide)
  have p2 : hitPaths .WIN_P1 (exploreGameTree chainBoard2 .P1 6) ≠ [] :=
    hitPaths_ne_nil_of_mem_node h2 (exploreGameTree_ne_nil _ _ _) p3
  have h1 := node_mem_exploreGameTree chainBoard1 .P2 7 0 5
    (by decide) (by decide) (by decide) (by decide)
  have p1 : hitPaths .WIN_P1 (exploreGameTree chainBoard1 .P2 7) ≠ [] :=
    hitPaths_ne_nil_of_mem_node h1 (exploreGameTree_ne_nil _ _ _) p2
  have h0 := node_mem_exploreGameTree createBoard .P1 8 3 5
    (by decide) (by decide) (by decide) (by decide)
  have p0 : hitPaths .WIN_P1 (exploreGameTree createBoard .P1 8) ≠ [] :=
    hitPaths_ne_nil_of_mem_node h0 (exploreGameTree_ne_nil _ _ _) p1
  cases hfd : findShortestWinningPath (exploreGameTree createBoard .P1 8) .WIN_P1 with
  | none =>
    rw [findShortestWinningPath_eq_pickBest] at hfd
    exact absurd (pickBest_eq_none_iff.mp hfd).2 p0
  | some s =>
    have hmem : s ∈ hitPaths .WIN_P1 (exploreGameTree createBoard .P1 8) := by
      have h' := hfd
      rw [findShortestWinningPath_eq_pickBest] at h'
      obtain ⟨h1', -, -⟩ := pickBest_some_spec _ _ _ h'
      rcases h1' with h1' | h1'
      · cases h1'
      · exact h1'
    have hpar := hitPaths_parity_exploreAux (emptyCount createBoard) createBoard .P1 8 s hmem
    simp only [if_pos rfl] at hpar
    refine ⟨s, rfl, ?_, hpar⟩
    intro h
    subst h
    simp at hpar
